import Mathlib

/-
Verification of the NC construction-bid scraper
(src/.github/workflows/nc_bid_scraper.py).

The script is embedded shallowly: Python strings become `List Char`
(ASCII semantics for case folding and character classes, which is what
all the literals appearing in the script exercise), pandas data frames
become a `Table` structure of named columns and rows, HTTP traffic is
an oracle from attempt numbers to outcomes, and the external
collaborators (urljoin, BeautifulSoup, tabula) are parameters of the
embedding, exactly as the specification treats them (black boxes).
-/

namespace NCScraper

/-- Characters of a Python string, modelled as a list. -/
abbrev Str := List Char

/-- ASCII model of Python `str.lower` on a single character. -/
def lowerCh (c : Char) : Char :=
  match c with
  | 'A' => 'a' | 'B' => 'b' | 'C' => 'c' | 'D' => 'd' | 'E' => 'e' | 'F' => 'f'
  | 'G' => 'g' | 'H' => 'h' | 'I' => 'i' | 'J' => 'j' | 'K' => 'k' | 'L' => 'l'
  | 'M' => 'm' | 'N' => 'n' | 'O' => 'o' | 'P' => 'p' | 'Q' => 'q' | 'R' => 'r'
  | 'S' => 's' | 'T' => 't' | 'U' => 'u' | 'V' => 'v' | 'W' => 'w' | 'X' => 'x'
  | 'Y' => 'y' | 'Z' => 'z'
  | c => c

/-- The upper-case letters, the only characters `lowerCh` moves. -/
def ucList : List Char :=
  ['A','B','C','D','E','F','G','H','I','J','K','L','M',
   'N','O','P','Q','R','S','T','U','V','W','X','Y','Z']

/-- ASCII model of Python whitespace (the class `\s` and the set
stripped by `str.strip`): space, tab, newline, carriage return,
vertical tab, form feed. -/
def isPyWs (c : Char) : Bool :=
  c = ' ' || c = '\t' || c = '\n' || c = '\r' || c = '\x0b' || c = '\x0c'

/-- ASCII model of the regex word class `\w`: letters, digits, underscore. -/
def isWordCh (c : Char) : Bool :=
  c.isAlphanum || c = '_'

/-- Python `str.lower` over a whole string. -/
def lowerStr (s : Str) : Str := s.map lowerCh

/-- Python `str.replace(a, b)` for single characters `a`, `b`. -/
def replCh (a b : Char) (s : Str) : Str :=
  s.map (fun c => if c = a then b else c)

/-- Python `str.strip()`: drop leading and trailing whitespace. -/
def stripWs (s : Str) : Str :=
  (((s.dropWhile isPyWs).reverse).dropWhile isPyWs).reverse

/-- Python substring containment `needle in hay`. -/
def containsSub (needle : Str) : Str → Bool
  | [] => needle.isEmpty
  | c :: rest => needle.isPrefixOf (c :: rest) || containsSub needle rest

/-- Python `hay.endswith(suffix)`. -/
def endsWithL (suffix hay : Str) : Bool :=
  suffix.reverse.isPrefixOf hay.reverse

/-- An HTML anchor element as seen by the link scanner: its visible
text (`link.get_text(strip=True)`) and its `href` attribute when present
(`soup.find_all('a', href=True)` keeps precisely the anchors whose
attribute is present). -/
structure Anchor where
  text : Str
  href : Option Str
deriving DecidableEq

/-- The `ProjectLink` record built by `find_project_links`. -/
structure ProjectLink where
  name : Str
  url : Str
  source : Str
deriving DecidableEq

/-- Keyword list of `find_project_links`:
`['bid', 'tabulation', 'letting', 'award', 'solicitation', 'project']`. -/
def keywords : List Str :=
  ["bid".toList, "tabulation".toList, "letting".toList,
   "award".toList, "solicitation".toList, "project".toList]

/-- Test `any(keyword in link_text.lower() for keyword in keywords)`. -/
def hasKeyword (text : Str) : Bool :=
  keywords.any (fun kw => containsSub kw (lowerStr text))

/-- Test `link['href'].lower().endswith('.pdf')`. -/
def isPdfHref (href : Str) : Bool :=
  endsWithL (".pdf".toList) (lowerStr href)

/-- The anchor loop of `find_project_links`: walk the document-order
anchor list, keep anchors whose text matches a keyword and whose href
lower-cases to a `.pdf` suffix, resolving the href against the page URL
with the external `urljoin` (the `resolve` parameter). -/
def scanAnchors (resolve : Str → Str → Str) (page_url : Str) :
    List Anchor → List ProjectLink
  | [] => []
  | a :: rest =>
    match a.href with
    | none => scanAnchors resolve page_url rest
    | some h =>
      if hasKeyword a.text && isPdfHref h then
        { name := a.text, url := resolve page_url h, source := page_url }
          :: scanAnchors resolve page_url rest
      else
        scanAnchors resolve page_url rest

/-- Model of `find_project_links`: `fetched` is the outcome of
`get_page(page_url)` followed by HTML parsing — `none` when the fetch
yielded no response, otherwise the page's anchors in document order. -/
def find_project_links (resolve : Str → Str → Str) (page_url : Str)
    (fetched : Option (List Anchor)) : List ProjectLink :=
  match fetched with
  | none => []
  | some anchors => scanAnchors resolve page_url anchors

/-- Claim-side retention predicate for C1, phrased the way the claim
states it: the anchor has a target attribute, its text matches a
keyword case-insensitively, and the target lower-cased ends in
`.pdf`. -/
def claimKeep (a : Anchor) : Bool :=
  a.href.isSome && hasKeyword a.text && isPdfHref (a.href.getD [])

/-- Claim-side link constructor for C1: the retained link's url is the
target resolved against the page URL. -/
def claimLink (resolve : Str → Str → Str) (page_url : Str) (a : Anchor) :
    ProjectLink :=
  { name := a.text, url := resolve page_url (a.href.getD []), source := page_url }

/-- Observable network events of `get_page`: the `time.sleep(delay)`
call and the `self.session.get` call. -/
inductive NetEvent
  | sleep (secs : Nat)
  | get
deriving DecidableEq

/-- Outcome of one GET attempt: `none` is a network-level
`requests.RequestException`; `some code` is an HTTP response carrying
status `code`.  `response.raise_for_status()` raises (an `HTTPError`,
a `RequestException` subclass) exactly for the client- and
server-error statuses `400 ≤ code < 600` — any other status,
including one of 600 or more, is returned — so an attempt fails iff
this predicate holds. -/
def attemptFails (r : Option Nat) : Bool :=
  match r with
  | none => true
  | some code => decide (400 ≤ code ∧ code < 600)

/-- Default `retries` argument of `get_page`. -/
def defaultRetries : Nat := 3

/-- Default `delay` argument of `get_page` (seconds). -/
def defaultDelay : Nat := 2

/-- The retry loop body of `get_page`.  `oracle` maps the attempt
index to that attempt's outcome; `attempt` is the loop variable and
the second `Nat` is the number of loop iterations still allowed
(`retries - attempt`).  Returns the result together with the trace of
sleep/get events, in order. -/
def get_page_go (oracle : Nat → Option Nat) (delay : Nat) (attempt : Nat) :
    Nat → Option Nat × List NetEvent
  | 0 => (none, [])
  | remaining + 1 =>
    let evs := [NetEvent.sleep delay, NetEvent.get]
    match oracle attempt with
    | some code =>
      if 400 ≤ code ∧ code < 600 then
        if remaining = 0 then
          (none, evs)
        else
          let r := get_page_go oracle delay (attempt + 1) remaining
          (r.1, evs ++ r.2)
      else
        (some code, evs)
    | none =>
      if remaining = 0 then
        (none, evs)
      else
        let r := get_page_go oracle delay (attempt + 1) remaining
        (r.1, evs ++ r.2)

/-- Model of `get_page(url)` with its default arguments
(`retries=3, delay=2`): the status of the returned response (or `none`
after exhausting retries) plus the event trace. -/
def get_page (oracle : Nat → Option Nat) : Option Nat × List NetEvent :=
  get_page_go oracle defaultDelay 0 defaultRetries

/-- Character class kept by `re.sub(r'[^\w\s-]', '', ...)`. -/
def keepCh (c : Char) : Bool :=
  isWordCh c || isPyWs c || c = '-'

/-- Python `str.replace(' ', '_')`. -/
def underscoreSp (s : Str) : Str := replCh ' ' '_' s

/-- The filename derivation of `process_pdf`:
`re.sub(r'[^\w\s-]', '', project['name'])[:100].replace(' ', '_') + '.pdf'`. -/
def safe_filename (name : Str) : Str :=
  underscoreSp ((name.filter keepCh).take 100) ++ (".pdf".toList)

/-- Claim-side filename pipeline for C6, phrased from the claim: strip
all characters other than word characters, whitespace and hyphens,
truncate to at most 100 characters, replace spaces with underscores,
append `.pdf`. -/
def claimFilename (name : Str) : Str :=
  underscoreSp ((name.filter (fun c => isWordCh c || isPyWs c || c = '-')).take 100)
    ++ (".pdf".toList)

/-- A cell of a data frame: a string, a number, or the missing-value
marker (pandas `NaN`). -/
inductive Cell
  | str (s : Str)
  | num (n : Nat)
  | na
deriving DecidableEq

/-- A pandas data frame as produced by tabula: named columns and rows. -/
structure Table where
  headers : List Str
  rows : List (List Cell)
deriving DecidableEq

/-- Model of `df.empty`: true when either axis has length zero. -/
def df_empty (t : Table) : Bool :=
  t.rows.isEmpty || t.headers.isEmpty

/-- The acceptance test of `process_pdf`:
`if df.empty or len(df.columns) < 2: continue` skips the table, so it
is accepted iff this predicate holds. -/
def acceptTable (t : Table) : Bool :=
  !(df_empty t || decide (t.headers.length < 2))

/-- Replace, in one row, the cell under the first occurrence of the
column `name` by `v` (helper for pandas column assignment). -/
def setFirst : List Str → List Cell → Str → Cell → List Cell
  | [], r, _, _ => r
  | _ :: _, [], _, _ => []
  | h :: hs, c :: cs, name, v =>
    if h = name then v :: cs else c :: setFirst hs cs name v

/-- Pandas column assignment `df[name] = v` (a scalar broadcast):
when a column of that name exists its cells are replaced, otherwise a
new column is appended on the right. -/
def setColumn (t : Table) (name : Str) (v : Cell) : Table :=
  if t.headers.contains name then
    { headers := t.headers, rows := t.rows.map (fun r => setFirst t.headers r name v) }
  else
    { headers := t.headers ++ [name], rows := t.rows.map (fun r => r ++ [v]) }

/-- Provenance values attached by `process_pdf` to each accepted
table. -/
structure PdfMeta where
  project_name : Str
  source_url : Str
  pdf_file : Str
  tbl_idx : Nat
  timestamp : Str
deriving DecidableEq

/-- Names of the five provenance columns, in assignment order. -/
def provNames : List Str :=
  ["project_name".toList, "source_url".toList, "pdf_source_file".toList,
   "pdf_table_index".toList, "scrape_timestamp".toList]

/-- Column-header normalisation of `process_pdf`:
`str(col).lower().replace('\r', ' ').replace('\n', ' ').strip().replace(' ', '_')`. -/
def normalizeHeader (s : Str) : Str :=
  underscoreSp (stripWs (replCh '\n' ' ' (replCh '\r' ' ' (lowerStr s))))

/-- The five provenance-column assignments of `process_pdf`, in source
order. -/
def withProvenance (t : Table) (m : PdfMeta) : Table :=
  setColumn
    (setColumn
      (setColumn
        (setColumn
          (setColumn t ("project_name".toList) (Cell.str m.project_name))
          ("source_url".toList) (Cell.str m.source_url))
        ("pdf_source_file".toList) (Cell.str m.pdf_file))
      ("pdf_table_index".toList) (Cell.num m.tbl_idx))
    ("scrape_timestamp".toList) (Cell.str m.timestamp)

/-- Per-table work of `process_pdf`'s loop body on an accepted table:
attach provenance, then normalise every column header. -/
def annotate (t : Table) (m : PdfMeta) : Table :=
  let t5 := withProvenance t m
  { headers := t5.headers.map normalizeHeader, rows := t5.rows }

/-- One iteration of `process_pdf`'s table loop: drop the table when
the acceptance test fails, otherwise append the annotated table to
`self.all_bids`. -/
def addTable (acc : List Table) (t : Table) (m : PdfMeta) : List Table :=
  if acceptTable t then acc ++ [annotate t m] else acc

/-- The `for i, df in enumerate(tables)` loop of `process_pdf`. -/
def addTables (p : ProjectLink) (fname ts : Str) :
    List Table → Nat → List Table → List Table
  | [], _, acc => acc
  | t :: rest, i, acc =>
    addTables p fname ts rest (i + 1)
      (addTable acc t ⟨p.name, p.url, fname, i, ts⟩)

/-- Python-dict insertion used by `run`'s deduplication
`{p['url']: p for p in all_project_links}`: an existing key keeps its
position but takes the new value, a new key is appended. -/
def upsert (acc : List ProjectLink) (p : ProjectLink) : List ProjectLink :=
  if acc.any (fun q => decide (q.url = p.url)) then
    acc.map (fun q => if q.url = p.url then p else q)
  else
    acc ++ [p]

/-- Deduplication of `run`: `{p['url']: p for p in links}.values()`. -/
def dedupByUrl (links : List ProjectLink) : List ProjectLink :=
  links.foldl upsert []

/-- Claim-side key order for C4: each url at the position of its first
occurrence. -/
def dedupKeysKeepFirst (urls : List Str) : List Str :=
  urls.foldl (fun a u => if u ∈ a then a else a ++ [u]) []

/-- Claim-side value selection for C4: the last-seen link with the
given url (the first hit when scanning the discovery order backwards). -/
def lastWithUrl (links : List ProjectLink) (u : Str) : Option ProjectLink :=
  links.reverse.find? (fun p => decide (p.url = u))

/-- Column set of `pd.concat`: union of all headers in order of first
appearance. -/
def unionCols (tables : List Table) : List Str :=
  dedupKeysKeepFirst ((tables.map Table.headers).flatten)

/-- Cell of a row under a named column (first occurrence), used to
realign rows during concatenation. -/
def lookupCell : List Str → List Cell → Str → Cell
  | [], _, _ => Cell.na
  | _ :: _, [], _ => Cell.na
  | h :: hs, c :: cs, name => if h = name then c else lookupCell hs cs name

/-- Realign one row of table `t` to the concatenated column list:
columns absent from `t` are filled with the missing-value marker. -/
def reindexRow (t : Table) (cols : List Str) (r : List Cell) : List Cell :=
  cols.map (fun c => if t.headers.contains c then lookupCell t.headers r c else Cell.na)

/-- Model of `pd.concat(self.all_bids, ignore_index=True)`. -/
def concatTables (tables : List Table) : Table :=
  let cols := unionCols tables
  { headers := cols
    rows := (tables.map (fun t => t.rows.map (reindexRow t cols))).flatten }

/-- The writer step of `run`: `if self.all_bids:` concatenate and
write one output table, else write nothing. -/
def writeOutput (tables : List Table) : Option Table :=
  if tables.isEmpty then none else some (concatTables tables)

/-- The seven literal seed URLs (`self.base_urls`). -/
def base_urls : List Str :=
  ["https://ncadmin.nc.gov/businesses/construction/projects-design-advertised-bidding".toList,
   "https://connect.ncdot.gov/letting/Pages/default.aspx".toList,
   "https://www.mecknc.gov/Finance/Procurement/Pages/Solicitations.aspx".toList,
   "https://www.wake.gov/departments-government/finance/business-inclusion-procurement/solicitation-opportunities".toList,
   "https://www.charlottenc.gov/Businesses/Business-Inclusion/Vendor-Management".toList,
   "https://raleighnc.gov/doing-business/bids-and-proposals".toList,
   "https://www.cmsk12.org/en-US/doing-business/solicitations".toList]

/-- Environment of a run: the external collaborators.  `fetchPage u`
is the parsed outcome of `get_page(u)` for a seed page (`none` when
retries were exhausted); `fetchPdf u` likewise for a PDF download;
`extract f` is the tabula result for the saved file (`[]` covers both
an empty result and a raised extraction error, which contribute zero
tables alike); `resolve` is `urljoin`; `ts` the ambient timestamp. -/
structure Env where
  fetchPage : Str → Option (List Anchor)
  fetchPdf : Str → Option Unit
  extract : Str → List Table
  resolve : Str → Str → Str
  ts : Str

/-- Model of `process_pdf(project)`: a failed download skips the
project silently; otherwise the saved file's tables are aggregated. -/
def process_pdf (env : Env) (acc : List Table) (p : ProjectLink) : List Table :=
  match env.fetchPdf p.url with
  | none => acc
  | some _ => addTables p (safe_filename p.name) env.ts (env.extract (safe_filename p.name)) 0 acc

/-- URL selection of `run`:
`self.base_urls if mode == 'full' else [self.base_urls[0]]`. -/
def urlsToScan (mode : Str) : List Str :=
  if mode = "full".toList then base_urls else [base_urls.headI]

/-- Link collection of `run`: scan each selected URL in order,
concatenating document-order results. -/
def collectLinks (env : Env) (urls : List Str) : List ProjectLink :=
  (urls.map (fun u => find_project_links env.resolve u (env.fetchPage u))).flatten

/-- PDF cap applied in test mode (`list(unique_projects)[:5]`). -/
def testCap : Nat := 5

/-- Project selection of `run`: deduplicate, then in test mode keep
only the first `testCap` entries. -/
def selectProjects (mode : Str) (links : List ProjectLink) : List ProjectLink :=
  let uniq := dedupByUrl links
  if mode = "full".toList then uniq else uniq.take testCap

/-- The aggregation phase of `run`: process every selected project in
order, accumulating `self.all_bids`. -/
def runTables (mode : Str) (env : Env) : List Table :=
  (selectProjects mode (collectLinks env (urlsToScan mode))).foldl (process_pdf env) []

/-- Model of `run(mode)`: the written output table, if any. -/
def run (mode : Str) (env : Env) : Option Table :=
  writeOutput (runTables mode env)

/-- A concrete environment in which every fetch fails, used to
instantiate universally quantified theorems. -/
def env0 : Env :=
  { fetchPage := fun _ => none
    fetchPdf := fun _ => none
    extract := fun _ => []
    resolve := fun _ h => h
    ts := [] }

/-- A 2-column, 3-row table with ordinary headers, used to
instantiate the acceptance theorems. -/
def tableGood : Table :=
  { headers := ["a".toList, "b".toList]
    rows := [[Cell.num 1, Cell.num 2], [Cell.num 3, Cell.num 4],
             [Cell.num 5, Cell.num 6]] }

/-- A 2-column, 3-row table whose first header collides with a
provenance column name. -/
def tableBad : Table :=
  { headers := ["project_name".toList, "x".toList]
    rows := [[Cell.na, Cell.na], [Cell.na, Cell.na], [Cell.na, Cell.na]] }

/-- Concrete provenance metadata for instantiations. -/
def m0 : PdfMeta :=
  { project_name := "p".toList
    source_url := "u".toList
    pdf_file := "f".toList
    tbl_idx := 0
    timestamp := "t".toList }

/-! ### Character-level helper lemmas -/

theorem lowerCh_cases (c : Char) : lowerCh c = c ∨ c ∈ ucList := by
  unfold lowerCh
  split <;> simp_all [ucList]

theorem uc_lower_fix : ∀ c ∈ ucList, lowerCh (lowerCh c) = lowerCh c := by decide

theorem uc_ws : ∀ c ∈ ucList, isPyWs (lowerCh c) = isPyWs c := by decide

theorem lowerCh_idem (c : Char) : lowerCh (lowerCh c) = lowerCh c := by
  rcases lowerCh_cases c with h | h
  · rw [h]
    exact h
  · exact uc_lower_fix c h

theorem isPyWs_lowerCh (c : Char) : isPyWs (lowerCh c) = isPyWs c := by
  rcases lowerCh_cases c with h | h
  · rw [h]
  · exact uc_ws c h

theorem map_fix {α : Type} (f : α → α) :
    ∀ l : List α, (∀ c ∈ l, f c = c) → l.map f = l := by
  intro l h
  induction l with
  | nil => rfl
  | cons a t ih =>
    simp only [List.map_cons, h a (by simp)]
    rw [ih (fun c hc => h c (by simp [hc]))]

theorem mem_replCh {a b c : Char} {s : Str} (h : c ∈ replCh a b s) :
    c = b ∨ (c ∈ s ∧ c ≠ a) := by
  unfold replCh at h
  rcases List.mem_map.mp h with ⟨d, hd, hfd⟩
  by_cases hda : d = a
  · left
    rw [if_pos hda] at hfd
    exact hfd.symm
  · right
    rw [if_neg hda] at hfd
    exact hfd ▸ ⟨hd, hda⟩

theorem mem_stripWs {s : Str} {c : Char} (h : c ∈ stripWs s) : c ∈ s := by
  unfold stripWs at h
  rw [List.mem_reverse] at h
  have h2 := (List.dropWhile_sublist isPyWs).mem h
  rw [List.mem_reverse] at h2
  exact (List.dropWhile_sublist isPyWs).mem h2

theorem normalizeHeader_chars {s : Str} {c : Char} (h : c ∈ normalizeHeader s) :
    lowerCh c = c ∧ c ≠ '\r' ∧ c ≠ '\n' ∧ c ≠ ' ' := by
  unfold normalizeHeader underscoreSp at h
  rcases mem_replCh h with h1 | ⟨h1, hsp⟩
  · subst h1
    exact ⟨by decide, by decide, by decide, by decide⟩
  · have h2 : c ∈ replCh '\n' ' ' (replCh '\r' ' ' (lowerStr s)) := mem_stripWs h1
    rcases mem_replCh h2 with h3 | ⟨h3, hn⟩
    · exact absurd h3 hsp
    rcases mem_replCh h3 with h4 | ⟨h4, hr⟩
    · exact absurd h4 hsp
    rcases List.mem_map.mp h4 with ⟨d, _, hd⟩
    exact ⟨hd ▸ lowerCh_idem d, hr, hn, hsp⟩

theorem dropWhile_head_false {α : Type} {p : α → Bool} {l r : List α} {c : α}
    (h : l.dropWhile p = c :: r) : p c = false := by
  induction l with
  | nil => simp [List.dropWhile] at h
  | cons a t ih =>
    rw [List.dropWhile_cons] at h
    by_cases hp : p a
    · exact ih (by simpa [hp] using h)
    · rw [if_neg hp] at h
      injection h with h1 h2
      subst h1
      simpa using hp

theorem prefix_head {α : Type} {l₁ l₂ : List α} {c : α} {r : List α}
    (hp : l₁ <+: l₂) (h : l₁ = c :: r) : ∃ r2, l₂ = c :: r2 := by
  obtain ⟨t, rfl⟩ := hp
  subst h
  exact ⟨r ++ t, by simp⟩

theorem stripWs_head {s : Str} {c : Char} {r : Str} (h : stripWs s = c :: r) :
    isPyWs c = false := by
  unfold stripWs at h
  have hsuf := List.dropWhile_suffix (l := (s.dropWhile isPyWs).reverse) isPyWs
  rw [← List.reverse_prefix] at hsuf
  rw [List.reverse_reverse] at hsuf
  obtain ⟨r2, h2⟩ := prefix_head hsuf h
  exact dropWhile_head_false h2

theorem stripWs_reverse_head {s : Str} {c : Char} {r : Str}
    (h : (stripWs s).reverse = c :: r) : isPyWs c = false := by
  unfold stripWs at h
  rw [List.reverse_reverse] at h
  exact dropWhile_head_false h

theorem stripWs_eq_self {t : Str}
    (hh : ∀ c r, t = c :: r → isPyWs c = false)
    (hl : ∀ c r, t.reverse = c :: r → isPyWs c = false) :
    stripWs t = t := by
  have h1 : t.dropWhile isPyWs = t := by
    cases ht : t with
    | nil => simp
    | cons c r =>
      rw [List.dropWhile_cons, hh c r ht]
      simp
  have h2 : t.reverse.dropWhile isPyWs = t.reverse := by
    cases ht : t.reverse with
    | nil => simp
    | cons c r =>
      rw [List.dropWhile_cons, hl c r ht]
      simp
  unfold stripWs
  rw [h1, h2, List.reverse_reverse]

theorem spUnd_nonWs {d : Char} (h : isPyWs d = false) :
    isPyWs (if d = ' ' then '_' else d) = false := by
  by_cases hd : d = ' '
  · subst hd
    simp [isPyWs] at h
  · simpa [hd] using h

theorem map_eq_cons_inv {α β : Type} {f : α → β} {l : List α} {c : β} {r : List β}
    (h : l.map f = c :: r) : ∃ d l2, l = d :: l2 ∧ f d = c := by
  cases l with
  | nil => simp at h
  | cons d l2 =>
    rw [List.map_cons] at h
    exact ⟨d, l2, rfl, (List.cons.injEq _ _ _ _ ▸ h).1⟩

theorem normalizeHeader_head_nonWs {s : Str} {c : Char} {r : Str}
    (h : normalizeHeader s = c :: r) : isPyWs c = false := by
  unfold normalizeHeader underscoreSp replCh at h
  obtain ⟨d, l2, hd, hfd⟩ := map_eq_cons_inv h
  exact hfd ▸ spUnd_nonWs (stripWs_head hd)

theorem normalizeHeader_reverse_head_nonWs {s : Str} {c : Char} {r : Str}
    (h : (normalizeHeader s).reverse = c :: r) : isPyWs c = false := by
  unfold normalizeHeader underscoreSp replCh at h
  rw [← List.map_reverse] at h
  obtain ⟨d, l2, hd, hfd⟩ := map_eq_cons_inv h
  exact hfd ▸ spUnd_nonWs (stripWs_reverse_head hd)

/-- C10: the column-header normalisation of `process_pdf` is
idempotent — applying lower-casing, carriage-return/newline
replacement, trimming and space-to-underscore replacement a second
time leaves the once-normalised header unchanged. -/
theorem normalizeHeader_idem (s : Str) :
    normalizeHeader (normalizeHeader s) = normalizeHeader s := by
  have h1 : lowerStr (normalizeHeader s) = normalizeHeader s :=
    map_fix _ _ (fun c hc => (normalizeHeader_chars hc).1)
  have h2 : replCh '\r' ' ' (normalizeHeader s) = normalizeHeader s :=
    map_fix _ _ (fun c hc => by simp [(normalizeHeader_chars hc).2.1])
  have h3 : replCh '\n' ' ' (normalizeHeader s) = normalizeHeader s :=
    map_fix _ _ (fun c hc => by simp [(normalizeHeader_chars hc).2.2.1])
  have h4 : stripWs (normalizeHeader s) = normalizeHeader s :=
    stripWs_eq_self
      (fun c r h => normalizeHeader_head_nonWs h)
      (fun c r h => normalizeHeader_reverse_head_nonWs h)
  have h5 : underscoreSp (normalizeHeader s) = normalizeHeader s :=
    map_fix _ _ (fun c hc => by simp [(normalizeHeader_chars hc).2.2.2])
  calc normalizeHeader (normalizeHeader s)
      = underscoreSp (stripWs (replCh '\n' ' '
          (replCh '\r' ' ' (lowerStr (normalizeHeader s))))) := rfl
    _ = normalizeHeader s := by rw [h1, h2, h3, h4, h5]

/-! ### Link extraction -/

theorem scanAnchors_eq (resolve : Str → Str → Str) (pu : Str)
    (anchors : List Anchor) :
    scanAnchors resolve pu anchors =
      (anchors.filter claimKeep).map (claimLink resolve pu) := by
  induction anchors with
  | nil => rfl
  | cons a rest ih =>
    cases ha : a.href with
    | none =>
      simp [scanAnchors, ha, List.filter_cons, claimKeep, ih]
    | some h =>
      by_cases hc : (hasKeyword a.text && isPdfHref h) = true
      · simp [scanAnchors, ha, hc, List.filter_cons, claimKeep, claimLink, ih]
      · simp [scanAnchors, ha, hc, List.filter_cons, claimKeep, claimLink, ih]

/-- C1: `find_project_links` returns the empty sequence when the fetch
yields no response; otherwise it returns, in document order, exactly
the anchors that carry a target attribute whose visible text
case-insensitively contains one of the six keywords and whose target
lower-cases to a `.pdf` suffix, each resolved against the page URL. -/
theorem find_project_links_correct (resolve : Str → Str → Str) (pu : Str) :
    find_project_links resolve pu none = [] ∧
    ∀ anchors, find_project_links resolve pu (some anchors) =
      (anchors.filter claimKeep).map (claimLink resolve pu) :=
  ⟨rfl, fun anchors => scanAnchors_eq resolve pu anchors⟩

/-! ### Filename derivation -/

/-- C6: the persisted filename equals the project name with all
characters other than word characters, whitespace and hyphens
stripped, truncated to at most 100 characters, spaces replaced by
underscores and `.pdf` appended; in particular
`"Bid: Road/Bridge (Final)!!"` yields `Bid_RoadBridge_Final.pdf`, and
the whole filename never exceeds 104 characters. -/
theorem safe_filename_correct :
    (∀ name, safe_filename name = claimFilename name) ∧
    (∀ name, (safe_filename name).length ≤ 104) ∧
    safe_filename ("Bid: Road/Bridge (Final)!!".toList) =
      "Bid_RoadBridge_Final.pdf".toList := by
  refine ⟨fun name => rfl, fun name => ?_, by decide⟩
  unfold safe_filename underscoreSp replCh
  rw [List.length_append, List.length_map]
  have h1 : (List.take 100 (name.filter keepCh)).length ≤ 100 := by
    rw [List.length_take]
    omega
  have h2 : (".pdf".toList).length = 4 := by decide
  omega

/-! ### Header normalisation (corrected claim) -/

theorem nonWs_ne {c : Char} (h : isPyWs c = false) :
    c ≠ '\r' ∧ c ≠ '\n' ∧ c ≠ ' ' := by
  refine ⟨?_, ?_, ?_⟩ <;> rintro rfl <;> simp [isPyWs] at h

/-- C3 counterexample: the raw header `"a  b"` (two spaces) is stored
as `a__b` — each space yields its own underscore — whereas the claim's
run-collapsing reading would store `a_b`. -/
theorem normalizeHeader_counterexample :
    normalizeHeader ("a  b".toList) = "a__b".toList ∧
    ("a__b".toList : Str) ≠ ("a_b".toList : Str) := by
  constructor
  · decide
  · decide

/-- C3 (amended): every stored header is the raw header after
case-folding, replacing each carriage-return and newline by a space,
trimming, and replacing each remaining space by an underscore — a run
of k spaces yields k underscores (not one), and whitespace other than
space, carriage return and newline is left in place by the
replacement steps. -/
theorem process_pdf_header_normalization (t : Table) (m : PdfMeta) :
    ((annotate t m).headers = (withProvenance t m).headers.map normalizeHeader) ∧
    (∀ s, normalizeHeader s =
      underscoreSp (stripWs (replCh '\n' ' ' (replCh '\r' ' ' (lowerStr s))))) ∧
    (∀ (a b : Char) (k : Nat), isPyWs a = false → isPyWs b = false →
      normalizeHeader (a :: (List.replicate k ' ' ++ [b])) =
        lowerCh a :: (List.replicate k '_' ++ [lowerCh b])) := by
  refine ⟨rfl, fun s => rfl, ?_⟩
  intro a b k ha hb
  have ha2 := nonWs_ne (show isPyWs (lowerCh a) = false by rw [isPyWs_lowerCh]; exact ha)
  have hb2 := nonWs_ne (show isPyWs (lowerCh b) = false by rw [isPyWs_lowerCh]; exact hb)
  have e1 : lowerStr (a :: (List.replicate k ' ' ++ [b]))
      = lowerCh a :: (List.replicate k ' ' ++ [lowerCh b]) := by
    simp only [lowerStr, List.map_cons, List.map_append, List.map_replicate,
      List.map_nil]
    rw [show lowerCh ' ' = ' ' from by decide]
  have e2 : replCh '\r' ' ' (lowerCh a :: (List.replicate k ' ' ++ [lowerCh b]))
      = lowerCh a :: (List.replicate k ' ' ++ [lowerCh b]) := by
    apply map_fix
    intro c hc
    simp only [List.mem_cons, List.mem_append, List.mem_replicate,
      List.not_mem_nil, or_false] at hc
    rcases hc with rfl | ⟨-, rfl⟩ | rfl
    · rw [if_neg ha2.1]
    · decide
    · rw [if_neg hb2.1]
  have e3 : replCh '\n' ' ' (lowerCh a :: (List.replicate k ' ' ++ [lowerCh b]))
      = lowerCh a :: (List.replicate k ' ' ++ [lowerCh b]) := by
    apply map_fix
    intro c hc
    simp only [List.mem_cons, List.mem_append, List.mem_replicate,
      List.not_mem_nil, or_false] at hc
    rcases hc with rfl | ⟨-, rfl⟩ | rfl
    · rw [if_neg ha2.2.1]
    · decide
    · rw [if_neg hb2.2.1]
  have e4 : stripWs (lowerCh a :: (List.replicate k ' ' ++ [lowerCh b]))
      = lowerCh a :: (List.replicate k ' ' ++ [lowerCh b]) := by
    apply stripWs_eq_self
    · intro c r h
      injection h with h1 h2
      rw [← h1, isPyWs_lowerCh]
      exact ha
    · intro c r h
      rw [List.reverse_cons, List.reverse_append, List.reverse_replicate] at h
      simp only [List.reverse_singleton, List.singleton_append, List.cons_append] at h
      injection h with h1 h2
      rw [← h1, isPyWs_lowerCh]
      exact hb
  have e5 : underscoreSp (lowerCh a :: (List.replicate k ' ' ++ [lowerCh b]))
      = lowerCh a :: (List.replicate k '_' ++ [lowerCh b]) := by
    simp only [underscoreSp, replCh, List.map_cons, List.map_append,
      List.map_replicate, List.map_nil]
    rw [if_neg ha2.2.2, if_neg hb2.2.2]
    simp
  calc normalizeHeader (a :: (List.replicate k ' ' ++ [b]))
      = underscoreSp (stripWs (replCh '\n' ' ' (replCh '\r' ' '
          (lowerStr (a :: (List.replicate k ' ' ++ [b])))))) := rfl
    _ = lowerCh a :: (List.replicate k '_' ++ [lowerCh b]) := by
        rw [e1, e2, e3, e4, e5]

/-- Witness for the amended C3 theorem at `a = 'A'`, `b = 'B'`,
`k = 2`. -/
theorem process_pdf_header_normalization_witness :
    normalizeHeader ('A' :: (List.replicate 2 ' ' ++ ['B'])) =
      lowerCh 'A' :: (List.replicate 2 '_' ++ [lowerCh 'B']) :=
  (process_pdf_header_normalization tableGood m0).2.2 'A' 'B' 2
    (by decide) (by decide)

/-! ### Table acceptance and provenance columns (corrected claim) -/

theorem setColumn_headers_append (t : Table) (name : Str) (v : Cell)
    (h : name ∉ t.headers) :
    (setColumn t name v).headers = t.headers ++ [name] := by
  unfold setColumn
  rw [if_neg]
  simpa using h

theorem withProvenance_headers (t : Table) (m : PdfMeta)
    (hdisj : ∀ c ∈ provNames, c ∉ t.headers) :
    (withProvenance t m).headers = t.headers ++ provNames := by
  have d1 : ("project_name".toList : Str) ∉ t.headers := hdisj _ (by decide)
  have d2 : ("source_url".toList : Str) ∉ t.headers := hdisj _ (by decide)
  have d3 : ("pdf_source_file".toList : Str) ∉ t.headers := hdisj _ (by decide)
  have d4 : ("pdf_table_index".toList : Str) ∉ t.headers := hdisj _ (by decide)
  have d5 : ("scrape_timestamp".toList : Str) ∉ t.headers := hdisj _ (by decide)
  have h1 := setColumn_headers_append t ("project_name".toList)
    (Cell.str m.project_name) d1
  have h2 := setColumn_headers_append _ ("source_url".toList)
    (Cell.str m.source_url) (by
      rw [h1]
      intro hmem
      rcases List.mem_append.mp hmem with hm | hm
      · exact d2 hm
      · revert hm
        decide)
  rw [h1] at h2
  have h3 := setColumn_headers_append _ ("pdf_source_file".toList)
    (Cell.str m.pdf_file) (by
      rw [h2]
      intro hmem
      rcases List.mem_append.mp hmem with hm | hm
      · rcases List.mem_append.mp hm with hm2 | hm2
        · exact d3 hm2
        · revert hm2
          decide
      · revert hm
        decide)
  rw [h2] at h3
  have h4 := setColumn_headers_append _ ("pdf_table_index".toList)
    (Cell.num m.tbl_idx) (by
      rw [h3]
      intro hmem
      rcases List.mem_append.mp hmem with hm | hm
      · rcases List.mem_append.mp hm with hm2 | hm2
        · rcases List.mem_append.mp hm2 with hm3 | hm3
          · exact d4 hm3
          · revert hm3
            decide
        · revert hm2
          decide
      · revert hm
        decide)
  rw [h3] at h4
  have h5 := setColumn_headers_append _ ("scrape_timestamp".toList)
    (Cell.str m.timestamp) (by
      rw [h4]
      intro hmem
      rcases List.mem_append.mp hmem with hm | hm
      · rcases List.mem_append.mp hm with hm2 | hm2
        · rcases List.mem_append.mp hm2 with hm3 | hm3
          · rcases List.mem_append.mp hm3 with hm4 | hm4
            · exact d5 hm4
            · revert hm4
              decide
          · revert hm3
            decide
        · revert hm2
          decide
      · revert hm
        decide)
  rw [h4] at h5
  calc (withProvenance t m).headers
      = ((((t.headers ++ ["project_name".toList]) ++ ["source_url".toList])
          ++ ["pdf_source_file".toList]) ++ ["pdf_table_index".toList])
          ++ ["scrape_timestamp".toList] := h5
    _ = t.headers ++ provNames := by
        simp [provNames, List.append_assoc]

theorem annotate_headers_len (t : Table) (m : PdfMeta)
    (hdisj : ∀ c ∈ provNames, c ∉ t.headers) :
    (annotate t m).headers.length = t.headers.length + 5 := by
  have hh : (annotate t m).headers = (withProvenance t m).headers.map normalizeHeader := rfl
  rw [hh, List.length_map, withProvenance_headers t m hdisj]
  simp [provNames]

theorem acceptTable_iff (t : Table) :
    acceptTable t = false ↔ (t.rows.length = 0 ∨ t.headers.length < 2) := by
  have hr : t.rows.isEmpty = true ↔ t.rows.length = 0 := by
    simp [List.isEmpty_iff, List.length_eq_zero]
  have hh : t.headers.isEmpty = true ↔ t.headers.length = 0 := by
    simp [List.isEmpty_iff, List.length_eq_zero]
  simp only [acceptTable, df_empty, Bool.not_eq_false', Bool.or_eq_true,
    decide_eq_true_eq]
  constructor
  · rintro (⟨h | h⟩ | h)
    · exact Or.inl (hr.mp h)
    · right
      have := hh.mp h
      omega
    · exact Or.inr h
  · rintro (h | h)
    · exact Or.inl (Or.inl (hr.mpr h))
    · exact Or.inr h

/-- C2 (amended): a raw table with fewer than two columns or zero
rows is discarded and never enters the run's collection; an accepted
table is appended with the five provenance columns set, which adds
exactly five new columns — a 2-column, 3-row table is retained with
exactly seven — provided no original column name coincides with a
provenance column name (when one does, pandas column assignment
overwrites that column in place and fewer than five columns are
added; see the counterexample). -/
theorem process_pdf_table_acceptance (t : Table) (m : PdfMeta) (acc : List Table)
    (hdisj : ∀ c ∈ provNames, c ∉ t.headers) :
    (acceptTable t = false ↔ (t.rows.length = 0 ∨ t.headers.length < 2)) ∧
    (acceptTable t = false → addTable acc t m = acc) ∧
    (acceptTable t = true →
      addTable acc t m = acc ++ [annotate t m] ∧
      (annotate t m).headers.length = t.headers.length + 5) := by
  refine ⟨acceptTable_iff t, fun h => ?_, fun h => ⟨?_, annotate_headers_len t m hdisj⟩⟩
  · unfold addTable
    simp [h]
  · unfold addTable
    simp [h]

/-- Witness for the amended C2 theorem: a concrete 2-column, 3-row
table with ordinary headers is retained and ends up with seven
columns. -/
theorem process_pdf_table_acceptance_witness :
    addTable [] tableGood m0 = [] ++ [annotate tableGood m0] ∧
    (annotate tableGood m0).headers.length = tableGood.headers.length + 5 :=
  (process_pdf_table_acceptance tableGood m0 [] (by decide)).2.2 (by decide)

/-- C2 counterexample: `tableBad` has exactly two columns and three
rows and passes the acceptance test, yet after the provenance
assignments it has six columns, not the seven the claim promises: its
original `project_name` column is overwritten in place. -/
theorem process_pdf_cols_counterexample :
    tableBad.headers.length = 2 ∧ tableBad.rows.length = 3 ∧
    acceptTable tableBad = true ∧
    (annotate tableBad m0).headers.length = 6 :=
  ⟨by decide, by decide, by decide, by decide⟩

/-! ### Retry loop of get_page -/

theorem get_page_go_trace (oracle : Nat → Option Nat) (d : Nat) :
    ∀ rem att, ∃ k, k ≤ rem ∧
      (get_page_go oracle d att rem).2 =
        (List.replicate k [NetEvent.sleep d, NetEvent.get]).flatten ∧
      (get_page_go oracle d att rem).2.count NetEvent.get = k := by
  intro rem
  induction rem with
  | zero =>
    intro att
    exact ⟨0, by omega, by simp [get_page_go], by simp [get_page_go]⟩
  | succ n ih =>
    intro att
    cases ho : oracle att with
    | some code =>
      by_cases hc : 400 ≤ code ∧ code < 600
      · by_cases hn : n = 0
        · subst hn
          refine ⟨1, by omega, ?_, ?_⟩ <;> simp [get_page_go, ho, hc]
        · obtain ⟨k, hk, htr, hcnt⟩ := ih (att + 1)
          refine ⟨k + 1, by omega, ?_, ?_⟩
          · simp [get_page_go, ho, hc, hn, htr, List.replicate_succ]
          · simp [get_page_go, ho, hc, hn, List.count_append, hcnt]
      · refine ⟨1, by omega, ?_, ?_⟩ <;> simp [get_page_go, ho, hc]
    | none =>
      by_cases hn : n = 0
      · subst hn
        refine ⟨1, by omega, ?_, ?_⟩ <;> simp [get_page_go, ho]
      · obtain ⟨k, hk, htr, hcnt⟩ := ih (att + 1)
        refine ⟨k + 1, by omega, ?_, ?_⟩
        · simp [get_page_go, ho, hn, htr, List.replicate_succ]
        · simp [get_page_go, ho, hn, List.count_append, hcnt]

theorem get_page_go_none (oracle : Nat → Option Nat) (d : Nat) :
    ∀ rem att, (∀ i, att ≤ i → i < att + rem → attemptFails (oracle i) = true) →
      (get_page_go oracle d att rem).1 = none := by
  intro rem
  induction rem with
  | zero =>
    intro att _
    simp [get_page_go]
  | succ n ih =>
    intro att hF
    have hA : attemptFails (oracle att) = true := hF att (le_refl att) (by omega)
    cases ho : oracle att with
    | some code =>
      have hc : 400 ≤ code ∧ code < 600 := by
        rw [ho] at hA
        simpa [attemptFails] using hA
      by_cases hn : n = 0
      · subst hn
        simp [get_page_go, ho, hc]
      · have := ih (att + 1) (fun i h1 h2 => hF i (by omega) (by omega))
        simp [get_page_go, ho, hc, hn, this]
    | none =>
      by_cases hn : n = 0
      · subst hn
        simp [get_page_go, ho]
      · have := ih (att + 1) (fun i h1 h2 => hF i (by omega) (by omega))
        simp [get_page_go, ho, hn, this]

theorem get_page_go_some (oracle : Nat → Option Nat) (d : Nat) :
    ∀ rem att c, (get_page_go oracle d att rem).1 = some c →
      attemptFails (some c) = false ∧ ∃ i, att ≤ i ∧ i < att + rem ∧ oracle i = some c := by
  intro rem
  induction rem with
  | zero =>
    intro att c h
    simp [get_page_go] at h
  | succ n ih =>
    intro att c h
    cases ho : oracle att with
    | some code =>
      by_cases hc : 400 ≤ code ∧ code < 600
      · by_cases hn : n = 0
        · subst hn
          simp [get_page_go, ho, hc] at h
        · simp only [get_page_go, ho, hc, hn] at h
          obtain ⟨hd, i, h1, h2, h3⟩ := ih (att + 1) c (by simpa using h)
          exact ⟨hd, i, by omega, by omega, h3⟩
      · have hcc : c = code := by
          simp [get_page_go, ho, hc] at h
          omega
        subst hcc
        exact ⟨by simpa [attemptFails] using hc, att, le_refl att, by omega, ho⟩
    | none =>
      by_cases hn : n = 0
      · subst hn
        simp [get_page_go, ho] at h
      · simp only [get_page_go, ho, hn] at h
        obtain ⟨hd, i, h1, h2, h3⟩ := ih (att + 1) c (by simpa using h)
        exact ⟨hd, i, by omega, by omega, h3⟩

/-- C5: with its default arguments, `get_page` performs at most three
GET attempts, each preceded by the fixed 2-second sleep (the first
included), treats a network error or an error status (a 4xx or 5xx,
exactly what `raise_for_status` raises on) as attempt failure,
returns `none` — it cannot raise — once all three attempts fail, and
any returned response has a status `raise_for_status` accepts,
obtained by one of the at most three attempts. -/
theorem get_page_correct (oracle : Nat → Option Nat) :
    ((get_page oracle).2.count NetEvent.get ≤ 3) ∧
    (∃ k, k ≤ 3 ∧ (get_page oracle).2 =
        (List.replicate k [NetEvent.sleep 2, NetEvent.get]).flatten) ∧
    ((∀ i, i < 3 → attemptFails (oracle i) = true) → (get_page oracle).1 = none) ∧
    (∀ c, (get_page oracle).1 = some c →
      attemptFails (some c) = false ∧ ∃ i, i < 3 ∧ oracle i = some c) := by
  obtain ⟨k, hk, htr, hcnt⟩ := get_page_go_trace oracle 2 3 0
  refine ⟨?_, ⟨k, hk, htr⟩, ?_, ?_⟩
  · have hc2 : List.count NetEvent.get (get_page oracle).2 = k := hcnt
    omega
  · intro hF
    exact get_page_go_none oracle 2 3 0 (fun i h1 h2 => hF i (by omega))
  · intro c h
    obtain ⟨hd, i, h1, h2, h3⟩ := get_page_go_some oracle 2 3 0 c h
    exact ⟨hd, i, by omega, h3⟩

/-- Witness for C5 at the oracle that always answers with status 500:
the call exhausts all three attempts, performing exactly three GETs,
and yields no response. -/
theorem get_page_correct_witness :
    (get_page (fun _ => some 500)).1 = none ∧
    (get_page (fun _ => some 500)).2.count NetEvent.get = 3 :=
  ⟨(get_page_correct (fun _ => some 500)).2.2.1 (by decide), by decide⟩

/-! ### Deduplication in run -/

theorem any_url_iff (acc : List ProjectLink) (p : ProjectLink) :
    (acc.any (fun q => decide (q.url = p.url)) = true) ↔
      p.url ∈ acc.map ProjectLink.url := by
  simp [List.any_eq_true, List.mem_map]

theorem upsert_map_url (acc : List ProjectLink) (p : ProjectLink) :
    (upsert acc p).map ProjectLink.url =
      if p.url ∈ acc.map ProjectLink.url then acc.map ProjectLink.url
      else acc.map ProjectLink.url ++ [p.url] := by
  unfold upsert
  by_cases hmem : p.url ∈ acc.map ProjectLink.url
  · rw [if_pos ((any_url_iff acc p).mpr hmem), if_pos hmem, List.map_map]
    apply List.map_congr_left
    intro q hq
    by_cases hqu : q.url = p.url
    · simp [hqu]
    · simp [hqu]
  · rw [if_neg (fun h => hmem ((any_url_iff acc p).mp h)), if_neg hmem]
    simp

theorem dedup_fold_map_url (l : List ProjectLink) :
    ∀ acc, ((l.foldl upsert acc).map ProjectLink.url) =
      (l.map ProjectLink.url).foldl
        (fun a u => if u ∈ a then a else a ++ [u]) (acc.map ProjectLink.url) := by
  induction l with
  | nil => intro acc; rfl
  | cons p rest ih =>
    intro acc
    rw [List.foldl_cons, List.map_cons, List.foldl_cons, ih (upsert acc p),
      upsert_map_url]

theorem ins_fold_nodup (us : List Str) :
    ∀ a : List Str, a.Nodup →
      (us.foldl (fun a u => if u ∈ a then a else a ++ [u]) a).Nodup := by
  induction us with
  | nil => intro a ha; exact ha
  | cons u rest ih =>
    intro a ha
    rw [List.foldl_cons]
    apply ih
    by_cases hu : u ∈ a
    · rwa [if_pos hu]
    · rw [if_neg hu]
      simp [List.nodup_append, ha, hu]

theorem ins_fold_mem (us : List Str) :
    ∀ (a : List Str) (u : Str),
      (u ∈ us.foldl (fun a v => if v ∈ a then a else a ++ [v]) a ↔
        u ∈ a ∨ u ∈ us) := by
  induction us with
  | nil => intro a u; simp
  | cons v rest ih =>
    intro a u
    rw [List.foldl_cons, ih]
    by_cases hv : v ∈ a
    · rw [if_pos hv]
      simp only [List.mem_cons]
      constructor
      · tauto
      · rintro (h | h | h)
        · exact Or.inl h
        · exact Or.inl (h ▸ hv)
        · exact Or.inr h
    · rw [if_neg hv]
      simp only [List.mem_append, List.mem_singleton, List.mem_cons]
      tauto

theorem find_upsert_hit (acc : List ProjectLink) (p : ProjectLink) (u : Str)
    (hpu : p.url = u) :
    (upsert acc p).find? (fun q => decide (q.url = u)) = some p := by
  unfold upsert
  by_cases hany : acc.any (fun q => decide (q.url = p.url)) = true
  · rw [if_pos hany, List.find?_map]
    have hpr : ((fun q => decide (q.url = u)) ∘
        (fun q => if q.url = p.url then p else q)) =
        (fun q : ProjectLink => decide (q.url = u)) := by
      funext q
      by_cases hq : q.url = p.url
      · simp [hq, hpu]
      · simp [hq]
    rw [hpr]
    obtain ⟨q0, hq0, hq0u⟩ := List.any_eq_true.mp hany
    have hsome : (acc.find? (fun q => decide (q.url = u))).isSome := by
      rw [List.find?_isSome]
      exact ⟨q0, hq0, by simp at hq0u; simp [hq0u, hpu]⟩
    obtain ⟨q1, hq1⟩ := Option.isSome_iff_exists.mp hsome
    have hq1u : q1.url = u := by
      have := List.find?_some hq1
      simpa using this
    rw [hq1, Option.map_some']
    rw [if_pos (hq1u.trans hpu.symm)]
  · rw [if_neg hany, List.find?_append]
    have hnone : acc.find? (fun q => decide (q.url = u)) = none := by
      rw [List.find?_eq_none]
      intro x hx
      simp only [decide_eq_true_eq]
      intro hxu
      exact hany (List.any_eq_true.mpr ⟨x, hx, by simp [hxu, hpu]⟩)
    rw [hnone]
    simp [hpu]

theorem find_upsert_miss (acc : List ProjectLink) (p : ProjectLink) (u : Str)
    (hpu : p.url ≠ u) :
    (upsert acc p).find? (fun q => decide (q.url = u)) =
      acc.find? (fun q => decide (q.url = u)) := by
  unfold upsert
  by_cases hany : acc.any (fun q => decide (q.url = p.url)) = true
  · rw [if_pos hany, List.find?_map]
    have hpr : ((fun q => decide (q.url = u)) ∘
        (fun q => if q.url = p.url then p else q)) =
        (fun q : ProjectLink => decide (q.url = u)) := by
      funext q
      by_cases hq : q.url = p.url
      · simp [hq, hpu]
      · simp [hq]
    rw [hpr]
    cases hfind : acc.find? (fun q => decide (q.url = u)) with
    | none => simp
    | some q1 =>
      have hq1u : q1.url = u := by
        have := List.find?_some hfind
        simpa using this
      rw [Option.map_some']
      rw [if_neg (show ¬ q1.url = p.url from by
        intro h
        rw [h] at hq1u
        exact hpu hq1u)]
  · rw [if_neg hany, List.find?_append]
    cases hfind : acc.find? (fun q => decide (q.url = u)) with
    | none => simp [hpu]
    | some q1 => simp

theorem dedup_fold_find (u : Str) (l : List ProjectLink) :
    ∀ acc, (l.foldl upsert acc).find? (fun q => decide (q.url = u)) =
      (l.reverse.find? (fun p => decide (p.url = u))).or
        (acc.find? (fun q => decide (q.url = u))) := by
  induction l with
  | nil => intro acc; simp
  | cons p rest ih =>
    intro acc
    rw [List.foldl_cons, ih (upsert acc p), List.reverse_cons, List.find?_append,
      Option.or_assoc]
    congr 1
    by_cases hpu : p.url = u
    · rw [find_upsert_hit acc p u hpu]
      simp [hpu]
    · rw [find_upsert_miss acc p u hpu]
      simp [hpu]

/-- C4: `run`'s deduplication keeps exactly one entry per distinct
url; the surviving entry for a url is the last-seen link carrying it;
and the deduplicated sequence lists the urls in the order of their
first occurrence in the discovery sequence (seed-URL order, then
document order). -/
theorem run_dedup_correct (links : List ProjectLink) :
    ((dedupByUrl links).map ProjectLink.url).Nodup ∧
    ((dedupByUrl links).map ProjectLink.url =
      dedupKeysKeepFirst (links.map ProjectLink.url)) ∧
    (∀ u, u ∈ (dedupByUrl links).map ProjectLink.url ↔
      u ∈ links.map ProjectLink.url) ∧
    (∀ u, (dedupByUrl links).find? (fun q => decide (q.url = u)) =
      lastWithUrl links u) := by
  have hmap : (dedupByUrl links).map ProjectLink.url =
      dedupKeysKeepFirst (links.map ProjectLink.url) := by
    unfold dedupByUrl dedupKeysKeepFirst
    rw [dedup_fold_map_url links []]
    rfl
  refine ⟨?_, hmap, ?_, ?_⟩
  · rw [hmap]
    exact ins_fold_nodup _ [] List.nodup_nil
  · intro u
    rw [hmap]
    unfold dedupKeysKeepFirst
    rw [ins_fold_mem]
    simp
  · intro u
    unfold dedupByUrl lastWithUrl
    rw [dedup_fold_find u links []]
    simp

/-! ### Writer -/

theorem reindexRow_na (t : Table) (cols : List Str) (r : List Cell)
    (i : Nat) (c : Str) (hc : cols[i]? = some c)
    (hnot : t.headers.contains c = false) :
    (reindexRow t cols r)[i]? = some Cell.na := by
  unfold reindexRow
  rw [List.getElem?_map, hc]
  simp only [Option.map_some']
  rw [hnot]
  simp

/-- C7: the writer produces no output exactly when the run collected
no accepted table; otherwise it writes the single concatenated table,
whose row count is the sum of the row counts of the accepted tables,
whose rows are exactly the accepted tables' rows realigned to the
common column list, and in which every column a source table lacks is
filled with the missing-value marker. -/
theorem run_writer_correct (tables : List Table) :
    (writeOutput tables = none ↔ tables = []) ∧
    (tables ≠ [] → writeOutput tables = some (concatTables tables)) ∧
    ((concatTables tables).rows.length =
      (tables.map (fun t => t.rows.length)).sum) ∧
    ((concatTables tables).rows =
      (tables.map (fun t => t.rows.map (reindexRow t (unionCols tables)))).flatten) ∧
    (∀ t ∈ tables, ∀ (r : List Cell) (i : Nat) (c : Str),
      (unionCols tables)[i]? = some c →
      t.headers.contains c = false →
      (reindexRow t (unionCols tables) r)[i]? = some Cell.na) := by
  refine ⟨?_, ?_, ?_, rfl, ?_⟩
  · unfold writeOutput
    cases tables with
    | nil => simp
    | cons t rest => simp
  · intro h
    unfold writeOutput
    rw [if_neg (by simpa [List.isEmpty_iff] using h)]
  · have hr : (concatTables tables).rows =
        (tables.map (fun t => t.rows.map (reindexRow t (unionCols tables)))).flatten := rfl
    rw [hr, List.length_flatten, List.map_map]
    apply congrArg
    apply List.map_congr_left
    intro t ht
    simp
  · intro t ht r i c hc hnot
    exact reindexRow_na t (unionCols tables) r i c hc hnot

/-- Witness for C7 on two concrete tables with partially disjoint
columns: an output is produced, its row count is the sum of the
inputs' row counts, and the realigned rows of the first table carry
the missing-value marker under the column it lacks. -/
theorem run_writer_correct_witness :
    writeOutput [tableGood, tableBad] = some (concatTables [tableGood, tableBad]) ∧
    (concatTables [tableGood, tableBad]).rows.length =
      ([tableGood, tableBad].map (fun t => t.rows.length)).sum ∧
    (reindexRow tableGood (unionCols [tableGood, tableBad])
      [Cell.num 1, Cell.num 2])[2]? = some Cell.na :=
  ⟨(run_writer_correct [tableGood, tableBad]).2.1 (by decide),
   (run_writer_correct [tableGood, tableBad]).2.2.1,
   (run_writer_correct [tableGood, tableBad]).2.2.2.2 tableGood (by decide)
     [Cell.num 1, Cell.num 2] 2 ("project_name".toList) (by decide) (by decide)⟩

/-! ### Run modes -/

/-- C8: in test mode exactly the first seed URL is scanned and at
most five deduplicated PDFs are processed; in full mode all seven
seed URLs are scanned and every deduplicated PDF link is processed
with no cap; and for either mode the per-item processing fold is the
same mode-independent function, so mode selection changes only the
input bounds. -/
theorem run_modes_correct (env : Env) :
    (urlsToScan ("test".toList) = [base_urls.headI]) ∧
    (urlsToScan ("full".toList) = base_urls) ∧
    (base_urls.length = 7) ∧
    (∀ links, (selectProjects ("test".toList) links).length ≤ 5) ∧
    (∀ links, selectProjects ("full".toList) links = dedupByUrl links) ∧
    (∀ mode, runTables mode env =
      (selectProjects mode (collectLinks env (urlsToScan mode))).foldl
        (process_pdf env) []) := by
  refine ⟨?_, ?_, rfl, ?_, ?_, fun mode => rfl⟩
  · unfold urlsToScan
    rw [if_neg (by decide)]
  · unfold urlsToScan
    rw [if_pos rfl]
  · intro links
    unfold selectProjects
    rw [if_neg (by decide)]
    simp [testCap, List.length_take]
  · intro links
    unfold selectProjects
    rw [if_pos rfl]

/-- C9: any mode string other than the exact string `full` — such as
`FULL` — makes `run` behave exactly as test mode: only the first seed
URL is scanned and at most five PDFs are processed. -/
theorem run_mode_fallback (mode : Str) (env : Env) (h : mode ≠ "full".toList) :
    run mode env = run ("test".toList) env := by
  have hu : urlsToScan mode = urlsToScan ("test".toList) := by
    unfold urlsToScan
    rw [if_neg h, if_neg (by decide)]
  have hs : ∀ links, selectProjects mode links = selectProjects ("test".toList) links := by
    intro links
    unfold selectProjects
    rw [if_neg h, if_neg (by decide)]
  unfold run runTables
  rw [hu, hs]

/-- Witness for C9: the mode string `FULL` is treated as test mode. -/
theorem run_mode_fallback_witness :
    run ("FULL".toList) env0 = run ("test".toList) env0 :=
  run_mode_fallback ("FULL".toList) env0 (by decide)

end NCScraper
